import Mathlib

/-!
Shallow embedding of the `resonera` audio-synthesis core
(`src/resonera/audio/{harmonics,transitions,mixer,generator}.py`) and proofs of
the specification claims about it.

Real-valued samples and frequencies are modelled by `ℚ`; the transcendental
primitives (`np.sin`, `np.exp`, `np.sqrt`, `10 ** x`) are abstract function
parameters, since none of the claims depends on their values.  NumPy's FFT is
modelled by a structure carrying the two transforms together with NumPy's
documented length laws; the claims about the FFT-based code concern only bin
selection and buffer lengths, never the transform values.
-/

deriving instance DecidableEq for Except

namespace Resonera

/-- Kinds of Python exceptions the embedded code can raise. -/
inductive Err where
  /-- `ValueError` raised for a non-positive or over-ceiling fundamental. -/
  | invalidFrequency
  /-- `ValueError` raised by the equalizer for an unknown band name. -/
  | invalidBand
  /-- `KeyError` from a failed `dict` lookup. -/
  | keyError
  /-- `ValueError` from `np.linspace` with a negative sample count. -/
  | negativeSamples
  /-- `ValueError` from `np.fft.irfft` when the target length is not positive. -/
  | invalidFFTPoints
  /-- `ValueError` from a NumPy broadcast of incompatible shapes. -/
  | shapeMismatch
  /-- `IndexError` / `ValueError` from indexing or reducing an empty array. -/
  | indexError
  deriving DecidableEq, Repr

/-- Python `int(x)` applied to a real value: truncation toward zero. -/
def ratTrunc (q : ℚ) : Int := if 0 ≤ q then ⌊q⌋ else ⌈q⌉

/-- `abs` on `ℚ`, unfolded so that the kernel can evaluate it. -/
def ratAbs (q : ℚ) : ℚ := if q < 0 then -q else q

theorem ratAbs_eq_abs (q : ℚ) : ratAbs q = |q| := by
  unfold ratAbs
  rcases lt_or_le q 0 with h | h
  · rw [if_pos h, abs_of_neg h]
  · rw [if_neg (not_lt.mpr h), abs_of_nonneg h]

/-- `np.linspace(a, b, num)` (default `endpoint=True`). -/
def linspace (a b : ℚ) (num : Nat) : List ℚ :=
  if num ≤ 1 then List.replicate num a
  else (List.range num).map (fun (i : Nat) => a + (b - a) * (i : ℚ) / ((num : ℚ) - 1))

/-- `np.linspace(a, b, num, False)` (`endpoint=False`), used for time arrays. -/
def linspaceF (a b : ℚ) (num : Nat) : List ℚ :=
  (List.range num).map (fun (i : Nat) => a + (b - a) * (i : ℚ) / (num : ℚ))

/-- `np.max(np.abs(xs))` (0 for the empty list; NumPy raises there, but every
use below is on a list whose emptiness is ruled out separately). -/
def peak (xs : List ℚ) : ℚ := xs.foldr (fun x m => max (ratAbs x) m) 0

/-- Element-wise NumPy `+` of two 1-d arrays: raises on a shape mismatch.
(The length-1 broadcast special case never arises on the paths modelled.) -/
def npAdd (xs ys : List ℚ) : Except Err (List ℚ) :=
  if xs.length = ys.length then .ok (List.zipWith (· + ·) xs ys)
  else .error .shapeMismatch

/-! ## HarmonicCalculator (`harmonics.py`) -/

/-- `self.harmonic_ratios` in its source order. -/
def harmonic_ratios : List ℚ := [1, 2, 3/2, 1333/1000, 5/4, 6/5]

/-- One pass of `while ratio > 2.0: ratio /= 2.0`, driven by fuel. -/
def halveLoop : Nat → ℚ → ℚ
  | 0, x => x
  | n + 1, x => if 2 < x then halveLoop n (x / 2) else x

/-- The `while ratio > 2.0: ratio /= 2.0` loop.  Fuel `x.num.natAbs` always
suffices: `x ≤ x.num.natAbs` and `2 ^ k > k`, so at most `num.natAbs` halvings
bring the value to `≤ 2`. -/
def reduceHalve (x : ℚ) : ℚ := halveLoop x.num.natAbs x

/-- The inner comparison of `_decompose_ratio` / the carrier scan: is `r`
within `0.01` of some canonical harmonic ratio? -/
def matchesHarmonic (r : ℚ) : Bool :=
  harmonic_ratios.any (fun h => decide (ratAbs (r - h) < 1/100))

/-- `HarmonicCalculator._decompose_ratio` (the `debug` logging is elided). -/
def decompose_ratio (ratio : ℚ) : ℚ :=
  let reduced := reduceHalve ratio
  if matchesHarmonic reduced then 1 else reduced

/-- The `core_carriers` dict of `optimize_carrier_frequency`; Python's
`core_carriers[target_freq]` is an exact-key lookup. -/
def coreCarriers (t : ℚ) : Option ℚ :=
  if t = 10 then some 200 else if t = 6 then some 288
  else if t = 2 then some 256 else none

/-- Python `range(mmin, mmax + 1)` over integers. -/
def multiplierRange (mmin mmax : Int) : List Int :=
  (List.range (mmax + 1 - mmin).toNat).map (fun (i : Nat) => mmin + (i : Int))

/-- The multiplier scan loop of `optimize_carrier_frequency`: break once the
candidate exceeds `max_carrier`, return the first candidate whose reduced
ratio matches a canonical harmonic ratio. -/
def scanCarriers (t maxc : ℚ) : List Int → Option ℚ
  | [] => none
  | m :: rest =>
    if maxc < t * m then none
    else if matchesHarmonic (reduceHalve ((t * m) / t)) then some (t * m)
    else scanCarriers t maxc rest

/-- The non-core path of `optimize_carrier_frequency`: scan multipliers from
`int(np.ceil(min_carrier / target_freq))` to `int(max_carrier / target_freq)`
and fall back to `min_carrier` when nothing matches. -/
def scanFallback (t minc maxc : ℚ) : ℚ :=
  let mmin : Int := ⌈minc / t⌉
  let mmax : Int := ratTrunc (maxc / t)
  match scanCarriers t maxc (multiplierRange mmin mmax) with
  | some c => c
  | none => minc

/-- `HarmonicCalculator.optimize_carrier_frequency`.  Note the code first
tests `target_freq` against the three core frequencies within `0.01`, then
performs an exact dict lookup `core_carriers[target_freq]`, which raises
`KeyError` for a near-but-unequal target. -/
def optimize_carrier_frequency (t minc maxc : ℚ) : Except Err ℚ :=
  if ratAbs (t - 10) < 1/100 ∨ ratAbs (t - 6) < 1/100 ∨ ratAbs (t - 2) < 1/100 then
    match coreCarriers t with
    | none => .error .keyError
    | some dc =>
      if minc ≤ dc ∧ dc ≤ maxc then .ok dc
      else .ok (scanFallback t minc maxc)
  else .ok (scanFallback t minc maxc)

/-! ## FrequencyTransition (`transitions.py`) -/

/-- `FrequencyTransition.sigmoid_transition`.  `expQ` models `np.exp`.
`num_steps = int(sample_rate * duration)`; `t` spans
`[-smoothness/2, smoothness/2]` inclusive; the raw logistic curve is
renormalized by its own first and last sampled values (`sigmoid[0]` /
`sigmoid[-1]` raise `IndexError` on an empty array) and mapped affinely onto
`[start_freq, end_freq]`. -/
def sigmoid_transition (expQ : ℚ → ℚ) (sample_rate : ℚ)
    (start_freq end_freq duration smoothness : ℚ) : Except Err (List ℚ) :=
  let num := ratTrunc (sample_rate * duration)
  if num < 0 then .error .negativeSamples
  else
    let t := linspace (-(smoothness / 2)) (smoothness / 2) num.toNat
    let sig := t.map (fun x => 1 / (1 + expQ (-x)))
    match sig.head?, sig.getLast? with
    | some s0, some sN =>
      .ok (sig.map (fun v =>
        start_freq + (end_freq - start_freq) * ((v - s0) / (sN - s0))))
    | _, _ => .error .indexError

/-! ## HarmonicOvertoneGenerator (`harmonics.py`) -/

/-- `safety_limits['max_frequency']`. -/
def max_frequency : ℚ := 1000

/-- `safety_limits['max_harmonics']`. -/
def max_harmonics : Nat := 5

/-- `safety_limits['min_amplitude']`. -/
def min_amplitude : ℚ := 1/10

/-- `safety_limits['amplitude_decay']`. -/
def amplitude_decay : ℚ := 7/10

/-- `if max_amplitude > 1: buffer /= max_amplitude` — the trailing
peak-normalization shared by several synthesis routines. -/
def normalizeIfClipping (xs : List ℚ) : List ℚ :=
  if 1 < peak xs then xs.map (fun x => x / peak xs) else xs

/-- The overtone loop of `generate_overtones`: for `n = 2 .. max_harmonics`,
break when `fundamental * n` exceeds the ceiling, decay the running
amplitude, break when it drops below `min_amplitude`, else add the harmonic
sine.  `sin2pi x` models `np.sin(2 * np.pi * x)`. -/
def overtoneLoop (sin2pi : ℚ → ℚ) (fundamental : ℚ) (t : List ℚ) :
    List Nat → ℚ → List ℚ → List ℚ
  | [], _, combined => combined
  | n :: rest, amplitude, combined =>
    if max_frequency < fundamental * (n : ℚ) then combined
    else if amplitude * amplitude_decay < min_amplitude then combined
    else
      overtoneLoop sin2pi fundamental t rest (amplitude * amplitude_decay)
        (List.zipWith (· + ·) combined
          (t.map (fun x =>
            amplitude * amplitude_decay * sin2pi (fundamental * (n : ℚ) * x))))

/-- `HarmonicOvertoneGenerator.generate_overtones`. -/
def generate_overtones (sin2pi : ℚ → ℚ) (sample_rate : ℚ)
    (fundamental duration base_amplitude : ℚ) : Except Err (List ℚ) :=
  if fundamental ≤ 0 then .error .invalidFrequency
  else if max_frequency < fundamental then .error .invalidFrequency
  else
    let num := ratTrunc (sample_rate * duration)
    if num < 0 then .error .negativeSamples
    else
      let t := linspaceF 0 duration num.toNat
      let combined := t.map (fun x => base_amplitude * sin2pi (fundamental * x))
      .ok (normalizeIfClipping
        (overtoneLoop sin2pi fundamental t (List.range' 2 (max_harmonics - 1))
          base_amplitude combined))

/-! ## AudioGenerator (`generator.py`) -/

/-- `AudioGenerator.__init__` fixes `self.sample_rate = 44100`. -/
def gen_sample_rate : ℚ := 44100

/-- `fade_length = int(fade_duration * self.sample_rate)`. -/
def fade_length (fade_duration : ℚ) : Nat :=
  (ratTrunc (fade_duration * gen_sample_rate)).toNat

/-- `audio[:len(ramp)] *= ramp` (for a ramp no longer than the array). -/
def mulPrefix (xs ramp : List ℚ) : List ℚ :=
  List.zipWith (· * ·) xs ramp ++ xs.drop ramp.length

/-- `audio[-len(ramp):] *= ramp` (for a ramp no longer than the array). -/
def mulSuffix (xs ramp : List ℚ) : List ℚ :=
  xs.take (xs.length - ramp.length) ++
    List.zipWith (· * ·) (xs.drop (xs.length - ramp.length)) ramp

/-- `AudioGenerator.apply_fade`.  The in-place `audio[:fade_length] *=
fade_in` multiplies a slice of length `min L fade_length` by a ramp of length
`fade_length`; NumPy raises a broadcast error whenever those lengths differ
(except for the scalar-like ramp of length 1). -/
def apply_fade (audio : List ℚ) (fade_duration : ℚ) : Except Err (List ℚ) :=
  let F := fade_length fade_duration
  if min audio.length F ≠ F ∧ F ≠ 1 then .error .shapeMismatch
  else .ok (mulSuffix (mulPrefix audio (linspace 0 1 F)) (linspace 1 0 F))

/-- Lines 222–230 of `generator.py`: joint peak normalization of the final
stereo pair — one scale factor from the larger channel peak, applied to both
channels, and only when that peak exceeds `1`. -/
def normalize_joint (l r : List ℚ) : List ℚ × List ℚ :=
  let m := max (peak l) (peak r)
  if 1 < m then (l.map (fun x => x / m), r.map (fun x => x / m)) else (l, r)

/-- `.astype(np.int16)` on one float value: C truncation toward zero, then
two's-complement wrap into 16 bits. -/
def int16cast (q : ℚ) : Int := (ratTrunc q + 2 ^ 15) % 2 ^ 16 - 2 ^ 15

/-- `(audio * 32767).astype(np.int16)` applied to one channel of the final
stereo buffer. -/
def pcm_encode (channel : List ℚ) : List Int :=
  channel.map (fun x => int16cast (x * 32767))

/-! ## Equalizer (`mixer.py`) -/

/-- Model of NumPy's real FFT: the transform values are opaque, the lengths
follow NumPy's documented behavior (`rfft` of `n` reals gives `n / 2 + 1`
complex bins; `irfft` with explicit target length `n` gives `n` reals).
Complex bins are modelled as (re, im) pairs. -/
structure FFTModel where
  rfft : List ℚ → List (ℚ × ℚ)
  irfft : List (ℚ × ℚ) → Nat → List ℚ
  rfft_length : ∀ xs, (rfft xs).length = xs.length / 2 + 1
  irfft_length : ∀ v n, (irfft v n).length = n

/-- A concrete `FFTModel` used to instantiate theorems at closed inputs. -/
def trivialFFT : FFTModel where
  rfft xs := List.replicate (xs.length / 2 + 1) (0, 0)
  irfft _ n := List.replicate n 0
  rfft_length xs := List.length_replicate _ _
  irfft_length _ n := List.length_replicate _ _

/-- `self.bands` of `Equalizer`. -/
def bands (band : String) : Option (ℚ × ℚ) :=
  if band = "low" then some (20, 250)
  else if band = "mid" then some (250, 4000)
  else if band = "high" then some (4000, 20000)
  else none

/-- `np.fft.rfftfreq(n, 1/sr)[k] = k * sr / n`. -/
def rfftfreq (sr : ℚ) (n : Nat) (k : Nat) : ℚ := (k : ℚ) * sr / (n : ℚ)

/-- Lines 54–58 of `mixer.py`:
`mask = (freqs >= low_freq) & (freqs <= high_freq); fft[mask] *= gain` —
the bin mask is inclusive at both edges.  `n` is the length of the audio the
spectrum was taken from. -/
def bandScaleSpectrum (sr : ℚ) (n : Nat) (lo hi gain : ℚ)
    (fft : List (ℚ × ℚ)) : List (ℚ × ℚ) :=
  fft.mapIdx (fun k c =>
    if lo ≤ rfftfreq sr n k ∧ rfftfreq sr n k ≤ hi then
      (gain * c.1, gain * c.2)
    else c)

/-- `Equalizer.apply_band_filter`.  `pow10 x` models `10 ** x`; an unknown
band name raises; `np.fft.rfft` raises on an empty array; the inverse
transform is called with the explicit original length. -/
def apply_band_filter (M : FFTModel) (pow10 : ℚ → ℚ) (sr : ℚ)
    (audio : List ℚ) (band : String) (gain_db : ℚ) : Except Err (List ℚ) :=
  match bands band with
  | none => .error .invalidBand
  | some (lo, hi) =>
    if audio.length = 0 then .error .invalidFFTPoints
    else
      .ok (M.irfft
        (bandScaleSpectrum sr audio.length lo hi (pow10 (gain_db / 20))
          (M.rfft audio))
        audio.length)

/-- The loop of `Equalizer.process` over the gains dict. -/
def eqLoop (M : FFTModel) (pow10 : ℚ → ℚ) (sr : ℚ) :
    List (String × ℚ) → List ℚ → Except Err (List ℚ)
  | [], audio => .ok audio
  | (band, gain) :: rest, audio =>
    match apply_band_filter M pow10 sr audio band gain with
    | .error e => .error e
    | .ok audio2 => eqLoop M pow10 sr rest audio2

/-- `Equalizer.process`: apply every band filter, then peak-normalize if the
result exceeds `1`. -/
def equalizer_process (M : FFTModel) (pow10 : ℚ → ℚ) (sr : ℚ)
    (audio : List ℚ) (gains : List (String × ℚ)) : Except Err (List ℚ) :=
  match eqLoop M pow10 sr gains audio with
  | .error e => .error e
  | .ok result => .ok (normalizeIfClipping result)

/-! ## BackgroundSoundMixer (`mixer.py`) -/

/-- `BackgroundSoundMixer.generate_white_noise`.  `gauss` models the draw
`np.random.normal(0, 1, samples)` as an explicit stream; `sqrtQ` models
`np.sqrt`.  The spectrum shaping multiplies bins `1..` by
`1 / sqrt(freqs[1:])` where `freqs = np.fft.rfftfreq(len(noise))` (sample
spacing `d = 1`, so `freqs[k] = k / samples`); `np.fft.irfft` is called
without a length and so returns `2 * (len(fft) - 1)` samples — one sample
short for odd input lengths — and raises when that number is zero. -/
def generate_white_noise (M : FFTModel) (sqrtQ : ℚ → ℚ) (gauss : Nat → ℚ)
    (sample_rate duration volume : ℚ) : Except Err (List ℚ) :=
  let samples := (ratTrunc (sample_rate * duration)).toNat
  if samples = 0 then .error .invalidFFTPoints
  else
    let noise := (List.range samples).map gauss
    let fft := M.rfft noise
    let fft2 := fft.take 1 ++
      (fft.drop 1).mapIdx (fun i c =>
        ((1 / sqrtQ (((i + 1 : Nat) : ℚ) / (samples : ℚ))) * c.1,
         (1 / sqrtQ (((i + 1 : Nat) : ℚ) / (samples : ℚ))) * c.2))
    let n := 2 * (fft2.length - 1)
    if n = 0 then .error .invalidFFTPoints
    else
      let noise2 := M.irfft fft2 n
      .ok (noise2.map (fun x => x / peak noise2 * volume))

/-- `BackgroundSoundMixer.generate_ambient_drone`: five harmonics of the base
frequency with fixed amplitudes, a slow `0.1 Hz`, 10%-depth amplitude
modulation, then normalization to exactly `volume` (`np.max` raises on an
empty array). -/
def generate_ambient_drone (sin2pi : ℚ → ℚ) (sample_rate : ℚ)
    (duration base_freq volume : ℚ) : Except Err (List ℚ) :=
  let num := (ratTrunc (sample_rate * duration)).toNat
  let t := linspaceF 0 duration num
  let drone := t.map (fun x =>
    (((1 : ℚ) * sin2pi (base_freq * 1 * x) +
      (1/2) * sin2pi (base_freq * (3/2) * x) +
      (3/10) * sin2pi (base_freq * 2 * x) +
      (1/5) * sin2pi (base_freq * (5/2) * x) +
      (1/10) * sin2pi (base_freq * 3 * x))) *
    (1 + 1/10 * sin2pi (1/10 * x)))
  if drone.isEmpty then .error .indexError
  else .ok (drone.map (fun x => x / peak drone * volume))

/-- Mono array or stereo pair, the two shapes `mix_background` accepts. -/
inductive MainAudio where
  | mono (ch : List ℚ)
  | stereo (l r : List ℚ)
  deriving DecidableEq, Repr

/-- The `background_type` literal of `mix_background`. -/
inductive BackgroundType where
  | white_noise
  | ambient
  deriving DecidableEq, Repr

/-- One channel of the mixing step: `ch + background`, then per-channel peak
normalization if the mix exceeds `1`. -/
def mixChannel (bg : List ℚ) (ch : List ℚ) : Except Err (List ℚ) :=
  match npAdd ch bg with
  | .error e => .error e
  | .ok mixed => .ok (normalizeIfClipping mixed)

/-- `BackgroundSoundMixer.mix_background`. -/
def mix_background (M : FFTModel) (sqrtQ sin2pi pow10 : ℚ → ℚ)
    (gauss : Nat → ℚ) (sample_rate : ℚ) (main : MainAudio)
    (bg_type : BackgroundType) (volume : ℚ)
    (eq_gains : Option (List (String × ℚ))) : Except Err MainAudio :=
  let len0 := match main with
    | .mono ch => ch.length
    | .stereo l _ => l.length
  let duration := (len0 : ℚ) / sample_rate
  let bgE := match bg_type with
    | .white_noise => generate_white_noise M sqrtQ gauss sample_rate duration volume
    | .ambient => generate_ambient_drone sin2pi sample_rate duration 100 volume
  match bgE with
  | .error e => .error e
  | .ok background =>
    let bg2E := match eq_gains with
      | none => Except.ok background
      | some gains => equalizer_process M pow10 sample_rate background gains
    match bg2E with
    | .error e => .error e
    | .ok bg2 =>
      match main with
      | .mono ch =>
        match mixChannel bg2 ch with
        | .error e => .error e
        | .ok out => .ok (.mono out)
      | .stereo l r =>
        match mixChannel bg2 l, mixChannel bg2 r with
        | .ok outl, .ok outr => .ok (.stereo outl outr)
        | .error e, _ => .error e
        | .ok _, .error e => .error e

/-! ### Claims C1, C2, C10 about `HarmonicCalculator` -/

theorem scanCarriers_in_range (t maxc minc : ℚ) :
    ∀ ms : List Int, (∀ m ∈ ms, minc ≤ t * m) →
      ∀ c, scanCarriers t maxc ms = some c → minc ≤ c ∧ c ≤ maxc := by
  intro ms
  induction ms with
  | nil => intro _ c h; simp [scanCarriers] at h
  | cons m rest ih =>
    intro hmem c h
    rw [scanCarriers] at h
    by_cases hbig : maxc < t * m
    · rw [if_pos hbig] at h; exact absurd h (by simp)
    · rw [if_neg hbig] at h
      by_cases hmatch : matchesHarmonic (reduceHalve ((t * m) / t)) = true
      · rw [if_pos hmatch] at h
        cases h
        exact ⟨hmem m (by simp), le_of_not_lt hbig⟩
      · rw [if_neg hmatch] at h
        exact ih (fun m' hm' => hmem m' (List.mem_cons_of_mem m hm')) c h

theorem mem_multiplierRange_le (mmin mmax m : Int)
    (h : m ∈ multiplierRange mmin mmax) : mmin ≤ m := by
  simp only [multiplierRange, List.mem_map, List.mem_range] at h
  obtain ⟨i, _, rfl⟩ := h
  omega

theorem scanFallback_in_range (t minc maxc : ℚ)
    (ht : 0 < t) (hmm : minc ≤ maxc) :
    minc ≤ scanFallback t minc maxc ∧ scanFallback t minc maxc ≤ maxc := by
  rw [scanFallback]
  cases hscan : scanCarriers t maxc
      (multiplierRange ⌈minc / t⌉ (ratTrunc (maxc / t))) with
  | none => exact ⟨le_refl _, hmm⟩
  | some c =>
    refine scanCarriers_in_range t maxc minc _ ?_ c hscan
    intro m hm
    have h1 : (⌈minc / t⌉ : ℚ) ≤ (m : ℚ) := by
      exact_mod_cast mem_multiplierRange_le _ _ _ hm
    have h2 : minc / t ≤ (m : ℚ) := le_trans (Int.le_ceil _) h1
    calc minc = t * (minc / t) := by field_simp
    _ ≤ t * m := by
        exact mul_le_mul_of_nonneg_left h2 (le_of_lt ht)

/-- C10: for a target frequency that is positive and either exactly one of the
three core frequencies or not within `0.01` of any of them, and for
`0 < min_carrier ≤ max_carrier`, `optimize_carrier_frequency` returns without
error a carrier inside `[min_carrier, max_carrier]` (in particular the
no-match fallback `min_carrier` is inside the range). -/
theorem optimize_carrier_frequency_in_range (t minc maxc : ℚ)
    (ht : 0 < t) (hminc : 0 < minc) (hmm : minc ≤ maxc)
    (hcore : t = 10 ∨ t = 6 ∨ t = 2 ∨
      ¬(ratAbs (t - 10) < 1/100 ∨ ratAbs (t - 6) < 1/100 ∨
        ratAbs (t - 2) < 1/100)) :
    ∃ r, optimize_carrier_frequency t minc maxc = .ok r ∧
      minc ≤ r ∧ r ≤ maxc := by
  have hscan := scanFallback_in_range t minc maxc ht hmm
  rw [optimize_carrier_frequency]
  by_cases hnear : ratAbs (t - 10) < 1/100 ∨ ratAbs (t - 6) < 1/100 ∨
      ratAbs (t - 2) < 1/100
  · rw [if_pos hnear]
    split
    · rename_i heq
      rcases hcore with rfl | rfl | rfl | hfar
      · exact absurd heq (by simp [coreCarriers])
      · exact absurd heq (by simp [coreCarriers])
      · exact absurd heq (by simp [coreCarriers])
      · exact absurd hnear hfar
    · rename_i dc heq
      by_cases hin : minc ≤ dc ∧ dc ≤ maxc
      · rw [if_pos hin]; exact ⟨dc, rfl, hin⟩
      · rw [if_neg hin]; exact ⟨_, rfl, hscan⟩
  · rw [if_neg hnear]; exact ⟨_, rfl, hscan⟩

theorem optimize_carrier_frequency_in_range_witness :
    (0 : ℚ) < 7 ∧ (0 : ℚ) < 200 ∧ (200 : ℚ) ≤ 1000 ∧
    ∃ r, optimize_carrier_frequency 7 200 1000 = .ok r ∧
      200 ≤ r ∧ r ≤ 1000 :=
  ⟨by norm_num, by norm_num, by norm_num,
    optimize_carrier_frequency_in_range 7 200 1000 (by norm_num) (by norm_num)
      (by norm_num)
      (Or.inr (Or.inr (Or.inr (by with_unfolding_all decide))))⟩

/-- C1 (amended): the tabulated carriers are returned only for a target
frequency exactly equal to `10`, `6` or `2`; then, whenever the tabulated
carrier lies in `[min_carrier, max_carrier]`, it is returned (in particular
`(10, 200, 500) ↦ 200`, `(6, 200, 500) ↦ 288`, `(2, 200, 500) ↦ 256`). -/
theorem optimize_carrier_frequency_core_exact (t c minc maxc : ℚ)
    (h : (t, c) ∈ ([(10, 200), (6, 288), (2, 256)] : List (ℚ × ℚ)))
    (h1 : minc ≤ c) (h2 : c ≤ maxc) :
    optimize_carrier_frequency t minc maxc = .ok c := by
  fin_cases h <;>
  · rw [optimize_carrier_frequency]
    rw [if_pos (by norm_num [ratAbs])]
    simp only [coreCarriers]
    norm_num
    exact fun himp => absurd (himp h1) (not_lt.mpr h2)

theorem optimize_carrier_frequency_core_exact_witness :
    optimize_carrier_frequency 10 200 500 = .ok 200 ∧
    optimize_carrier_frequency 6 200 500 = .ok 288 ∧
    optimize_carrier_frequency 2 200 500 = .ok 256 :=
  ⟨optimize_carrier_frequency_core_exact 10 200 200 500 (by norm_num)
      (by norm_num) (by norm_num),
   optimize_carrier_frequency_core_exact 6 288 200 500 (by norm_num)
      (by norm_num) (by norm_num),
   optimize_carrier_frequency_core_exact 2 256 200 500 (by norm_num)
      (by norm_num) (by norm_num)⟩

/-- C1 (counterexample): `10.005` is within `0.01` of the core frequency `10`
and the tabulated carrier `200` lies in `[200, 500]`, yet the code raises
`KeyError` from the exact dict lookup `core_carriers[target_freq]` instead of
returning `200`. -/
theorem optimize_carrier_frequency_near_core_keyerror :
    ratAbs ((2001/200 : ℚ) - 10) < 1/100 ∧
    optimize_carrier_frequency (2001/200) 200 500 = .error .keyError ∧
    optimize_carrier_frequency (2001/200) 200 500 ≠ .ok 200 := by
  refine ⟨by norm_num [ratAbs], by with_unfolding_all rfl, ?_⟩
  rw [show optimize_carrier_frequency (2001/200) 200 500 = .error .keyError
    from by with_unfolding_all rfl]
  simp

set_option maxRecDepth 8000 in
/-- C2 (amended): for canonical ratios `r1, r2`, decomposing the
halving-reduced product yields `1.0` exactly when one factor is `1.0` or
`2.0`, or the pair is `{1.2, 1.25}` (product `1.5`) or `{1.333, 1.5}`
(product `1.9995`, within `0.01` of `2.0`); every other pair returns the
unmatched reduced product instead. -/
theorem decompose_product_characterization (r1 r2 : ℚ)
    (h1 : r1 ∈ harmonic_ratios) (h2 : r2 ∈ harmonic_ratios) :
    (decompose_ratio (reduceHalve (r1 * r2)) = 1 ↔
      (r1 = 1 ∨ r1 = 2 ∨ r2 = 1 ∨ r2 = 2 ∨
       (r1 = 6/5 ∧ r2 = 5/4) ∨ (r1 = 5/4 ∧ r2 = 6/5) ∨
       (r1 = 1333/1000 ∧ r2 = 3/2) ∨ (r1 = 3/2 ∧ r2 = 1333/1000))) := by
  simp only [harmonic_ratios, List.mem_cons, List.not_mem_nil, or_false] at h1 h2
  rcases h1 with rfl | rfl | rfl | rfl | rfl | rfl <;>
    rcases h2 with rfl | rfl | rfl | rfl | rfl | rfl <;>
    with_unfolding_all decide

theorem decompose_product_characterization_witness :
    ((6/5 : ℚ) ∈ harmonic_ratios ∧ (5/4 : ℚ) ∈ harmonic_ratios) ∧
    (decompose_ratio (reduceHalve ((6/5 : ℚ) * (5/4))) = 1 ↔
      ((6/5 : ℚ) = 1 ∨ (6/5 : ℚ) = 2 ∨ (5/4 : ℚ) = 1 ∨ (5/4 : ℚ) = 2 ∨
       ((6/5 : ℚ) = 6/5 ∧ (5/4 : ℚ) = 5/4) ∨
       ((6/5 : ℚ) = 5/4 ∧ (5/4 : ℚ) = 6/5) ∨
       ((6/5 : ℚ) = 1333/1000 ∧ (5/4 : ℚ) = 3/2) ∨
       ((6/5 : ℚ) = 3/2 ∧ (5/4 : ℚ) = 1333/1000))) :=
  ⟨⟨by norm_num [harmonic_ratios], by norm_num [harmonic_ratios]⟩,
    decompose_product_characterization (6/5) (5/4)
      (by norm_num [harmonic_ratios]) (by norm_num [harmonic_ratios])⟩

/-- C2 (counterexample): for the canonical pair `r1 = r2 = 1.2` the reduced
product is `1.44`, which is not within `0.01` of any canonical ratio, so
`_decompose_ratio` returns `1.44`, not `1.0`. -/
theorem decompose_product_counterexample :
    reduceHalve ((6/5 : ℚ) * (6/5)) = 36/25 ∧
    decompose_ratio (reduceHalve ((6/5 : ℚ) * (6/5))) = 36/25 ∧
    (36/25 : ℚ) ≠ 1 := by
  with_unfolding_all decide

/-! ### Helper lemmas about the numeric primitives -/

theorem linspace_length (a b : ℚ) (n : Nat) : (linspace a b n).length = n := by
  rw [linspace]; split
  · exact List.length_replicate _ _
  · simp

theorem linspace_head_eq (a b : ℚ) (n : Nat) (h : 1 ≤ n) :
    (linspace a b n).head? = some a := by
  rw [linspace]
  by_cases h1 : n ≤ 1
  · rw [if_pos h1]
    have h2 : n = 1 := le_antisymm h1 h
    subst h2; rfl
  · rw [if_neg h1]
    obtain ⟨m, rfl⟩ : ∃ m, n = m + 1 := ⟨n - 1, by omega⟩
    rw [List.range_succ_eq_map, List.map_cons]
    simp

theorem linspace_getLast_eq (a b : ℚ) (n : Nat) (h : 2 ≤ n) :
    (linspace a b n).getLast? = some b := by
  rw [linspace, if_neg (by omega)]
  obtain ⟨m, rfl⟩ : ∃ m, n = m + 1 := ⟨n - 1, by omega⟩
  rw [List.range_succ, List.map_append, List.map_cons, List.map_nil,
    List.getLast?_concat]
  congr 1
  have hm : (1 : ℚ) ≤ (m : ℚ) := by exact_mod_cast Nat.one_le_iff_ne_zero.mpr (by omega)
  have hm0 : (m : ℚ) ≠ 0 := by linarith
  push_cast
  field_simp

theorem ratAbs_nonneg (q : ℚ) : 0 ≤ ratAbs q := by
  rw [ratAbs_eq_abs]; exact abs_nonneg q

theorem le_peak {xs : List ℚ} {x : ℚ} (h : x ∈ xs) : ratAbs x ≤ peak xs := by
  induction xs with
  | nil => simp at h
  | cons y ys ih =>
    have hp : peak (y :: ys) = max (ratAbs y) (peak ys) := rfl
    rcases List.mem_cons.mp h with rfl | hmem
    · rw [hp]; exact le_max_left _ _
    · rw [hp]; exact le_trans (ih hmem) (le_max_right _ _)

theorem peak_nonneg (xs : List ℚ) : 0 ≤ peak xs := by
  induction xs with
  | nil => exact le_refl 0
  | cons y ys ih =>
    have hp : peak (y :: ys) = max (ratAbs y) (peak ys) := rfl
    rw [hp]; exact le_trans ih (le_max_right _ _)

theorem div_peak_le_one {y m : ℚ} (h1 : ratAbs y ≤ m) (h2 : 1 < m) :
    ratAbs (y / m) ≤ 1 := by
  have h0 : 0 < m := lt_trans one_pos h2
  rw [ratAbs_eq_abs] at h1 ⊢
  rw [abs_div, abs_of_pos h0]
  rw [div_le_one h0]
  linarith

theorem mem_normalizeIfClipping_le_one {xs : List ℚ} {x : ℚ}
    (h : x ∈ normalizeIfClipping xs) : ratAbs x ≤ 1 := by
  rw [normalizeIfClipping] at h
  by_cases hp : 1 < peak xs
  · rw [if_pos hp] at h
    obtain ⟨y, hy, rfl⟩ := List.mem_map.mp h
    exact div_peak_le_one (le_peak hy) hp
  · rw [if_neg hp] at h
    exact le_trans (le_peak h) (not_lt.mp hp)

theorem normalizeIfClipping_length (xs : List ℚ) :
    (normalizeIfClipping xs).length = xs.length := by
  rw [normalizeIfClipping]; split <;> simp

/-! ### Claim C4 about `generate_overtones` -/

/-- C4: `generate_overtones` raises `InvalidFrequency` exactly when the
fundamental is non-positive or exceeds the `1000 Hz` safety ceiling (for any
duration and base amplitude, and any model of `np.sin`); the `Except` result
carries no partial buffer in that case.  In particular fundamentals `1200`,
`0` and every negative value raise. -/
theorem generate_overtones_invalid_iff (sin2pi : ℚ → ℚ) (sr f d a : ℚ) :
    generate_overtones sin2pi sr f d a = .error .invalidFrequency ↔
      (f ≤ 0 ∨ max_frequency < f) := by
  simp only [generate_overtones]
  split_ifs with h1 h2 h3
  · simp [h1]
  · simp [h2]
  · simp [h1, h2]
  · simp [h1, h2]

/-! ### Claim C6 about `sigmoid_transition` -/

/-- C6: whenever the sampled curve has at least two points, the
renormalization by the curve's own first and last logistic samples makes
`sigmoid_transition` start exactly at `start_freq` and end exactly at
`end_freq` (for any model of `np.exp` that is positive and distinguishes
`smoothness/2` from `-smoothness/2`). -/
theorem sigmoid_transition_endpoints (expQ : ℚ → ℚ) (sr s e d sm : ℚ)
    (hpos : ∀ x, 0 < expQ x)
    (hne : expQ (sm / 2) ≠ expQ (-(sm / 2)))
    (hnum : 2 ≤ ratTrunc (sr * d)) :
    ∃ ys, sigmoid_transition expQ sr s e d sm = .ok ys ∧
      ys.head? = some s ∧ ys.getLast? = some e ∧
      ys.length = (ratTrunc (sr * d)).toNat := by
  have hnn : ¬ ratTrunc (sr * d) < 0 := by omega
  have hN1 : 1 ≤ (ratTrunc (sr * d)).toNat := by omega
  have hN2 : 2 ≤ (ratTrunc (sr * d)).toNat := by omega
  have hA : (0 : ℚ) < 1 + expQ (-(sm / 2)) := by linarith [hpos (-(sm / 2))]
  have hB : (0 : ℚ) < 1 + expQ (sm / 2) := by linarith [hpos (sm / 2)]
  have hg : ∀ x : ℚ, (1 : ℚ) / (1 + expQ (-x)) = 1 / (1 + expQ (-x)) :=
    fun _ => rfl
  simp only [sigmoid_transition, if_neg hnn]
  rw [List.head?_map, List.getLast?_map,
    linspace_head_eq _ _ _ hN1, linspace_getLast_eq _ _ _ hN2]
  simp only [Option.map_some', neg_neg]
  have hΔ : 1 / (1 + expQ (-(sm / 2))) - 1 / (1 + expQ (sm / 2)) ≠ 0 := by
    intro heq
    apply hne
    have h2 := sub_eq_zero.mp heq
    have h5 := (div_eq_div_iff (ne_of_gt hA) (ne_of_gt hB)).mp h2
    linarith
  refine ⟨_, rfl, ?_, ?_, ?_⟩
  · rw [List.head?_map, List.head?_map, linspace_head_eq _ _ _ hN1]
    simp only [Option.map_some', neg_neg]
    congr 1
    rw [sub_self, zero_div, mul_zero, add_zero]
  · rw [List.getLast?_map, List.getLast?_map, linspace_getLast_eq _ _ _ hN2]
    simp only [Option.map_some', neg_neg]
    congr 1
    rw [div_self hΔ, mul_one]
    ring
  · simp [linspace_length]

theorem sigmoid_transition_endpoints_witness :
    (∀ x : ℚ, 0 < (fun y : ℚ => if y < 0 then (1/2 : ℚ) else 2) x) ∧
    ((fun y : ℚ => if y < 0 then (1/2 : ℚ) else 2) (6 / 2) ≠
      (fun y : ℚ => if y < 0 then (1/2 : ℚ) else 2) (-(6 / 2))) ∧
    2 ≤ ratTrunc ((1 : ℚ) * 2) ∧
    ∃ ys, sigmoid_transition (fun y : ℚ => if y < 0 then (1/2 : ℚ) else 2)
        1 8 4 2 6 = .ok ys ∧
      ys.head? = some 8 ∧ ys.getLast? = some 4 ∧
      ys.length = (ratTrunc ((1 : ℚ) * 2)).toNat :=
  ⟨fun x => by
      show (0 : ℚ) < if x < 0 then (1/2 : ℚ) else 2
      split <;> norm_num,
   by norm_num,
   by rw [ratTrunc]; norm_num,
   sigmoid_transition_endpoints _ 1 8 4 2 6
     (fun x => by
       show (0 : ℚ) < if x < 0 then (1/2 : ℚ) else 2
       split <;> norm_num)
     (by norm_num)
     (by rw [ratTrunc]; norm_num)⟩

/-! ### Claim C5 about the final joint normalization in `generate` -/

/-- C5: the final normalization of the stereo pair is joint — one scale
factor, computed from the larger of the two channel peaks and applied to both
channels (and equal to `1` when that peak does not exceed `1`) — and after it
every sample of both channels has absolute value at most `1`. -/
theorem normalize_joint_spec (l r : List ℚ) :
    (∀ x ∈ (normalize_joint l r).1, ratAbs x ≤ 1) ∧
    (∀ x ∈ (normalize_joint l r).2, ratAbs x ≤ 1) ∧
    ∃ s : ℚ, 0 < s ∧
      (normalize_joint l r).1 = l.map (fun x => x * s) ∧
      (normalize_joint l r).2 = r.map (fun x => x * s) ∧
      (max (peak l) (peak r) ≤ 1 → s = 1) := by
  simp only [normalize_joint]
  by_cases hm : 1 < max (peak l) (peak r)
  · rw [if_pos hm]
    have h0 : 0 < max (peak l) (peak r) := lt_trans one_pos hm
    refine ⟨?_, ?_, 1 / max (peak l) (peak r), by positivity, ?_, ?_, ?_⟩
    · intro x hx
      obtain ⟨y, hy, rfl⟩ := List.mem_map.mp hx
      exact div_peak_le_one (le_trans (le_peak hy) (le_max_left _ _)) hm
    · intro x hx
      obtain ⟨y, hy, rfl⟩ := List.mem_map.mp hx
      exact div_peak_le_one (le_trans (le_peak hy) (le_max_right _ _)) hm
    · exact List.map_congr_left fun x _ => div_eq_mul_one_div x _
    · exact List.map_congr_left fun x _ => div_eq_mul_one_div x _
    · intro hle; exact absurd hle (not_le.mpr hm)
  · rw [if_neg hm]
    refine ⟨?_, ?_, 1, one_pos, by simp, by simp, fun _ => rfl⟩
    · intro x hx
      exact le_trans (le_peak hx) (le_trans (le_max_left _ _) (not_lt.mp hm))
    · intro x hx
      exact le_trans (le_peak hx) (le_trans (le_max_right _ _) (not_lt.mp hm))

/-! ### Claim C8 about the 16-bit PCM encoding in `generate` -/

theorem ratTrunc_scale_bound {x : ℚ} (hx : ratAbs x ≤ 1) :
    -32767 ≤ ratTrunc (x * 32767) ∧ ratTrunc (x * 32767) ≤ 32767 := by
  rw [ratAbs_eq_abs] at hx
  obtain ⟨hxl, hxr⟩ := abs_le.mp hx
  have h1 : -(32767 : ℚ) ≤ x * 32767 := by nlinarith
  have h2 : x * 32767 ≤ 32767 := by nlinarith
  rw [ratTrunc]
  split_ifs with h0
  · constructor
    · have hn : (0 : ℤ) ≤ ⌊x * 32767⌋ := Int.floor_nonneg.mpr h0
      omega
    · calc ⌊x * 32767⌋ ≤ ⌊(32767 : ℚ)⌋ := Int.floor_le_floor h2
      _ = 32767 := by norm_num
  · have hlb : (-32767 : ℤ) ≤ ⌈x * 32767⌉ := by
      calc (-32767 : ℤ) = ⌈((-32767 : ℤ) : ℚ)⌉ := (Int.ceil_intCast _).symm
      _ ≤ ⌈x * 32767⌉ := Int.ceil_le_ceil (by push_cast; linarith)
    have hub : ⌈x * 32767⌉ ≤ 0 := by
      calc ⌈x * 32767⌉ ≤ ⌈(0 : ℚ)⌉ := Int.ceil_le_ceil (le_of_lt (not_le.mp h0))
      _ = 0 := Int.ceil_zero
    exact ⟨hlb, by omega⟩

theorem int16cast_of_bounded {x : ℚ} (h1 : -32768 ≤ ratTrunc x)
    (h2 : ratTrunc x ≤ 32767) : int16cast x = ratTrunc x := by
  rw [int16cast]
  have hl : (0 : ℤ) ≤ ratTrunc x + 2 ^ 15 := by omega
  have hr : ratTrunc x + 2 ^ 15 < 2 ^ 16 := by omega
  rw [Int.emod_eq_of_lt hl hr]
  omega

/-- C8: on samples in `[-1, 1]` the PCM encoding scales by `32767` and
truncates toward zero (never rounds to nearest, never wraps): every channel
value lands in `[-32767, 32767]`, and a value whose scaled magnitude is
`0.9` encodes to `0` from either side of zero. -/
theorem pcm_encode_truncates (xs : List ℚ) (h : ∀ x ∈ xs, ratAbs x ≤ 1) :
    pcm_encode xs = xs.map (fun x => ratTrunc (x * 32767)) ∧
    (∀ y ∈ pcm_encode xs, -32767 ≤ y ∧ y ≤ 32767) ∧
    int16cast (9/10) = 0 ∧ int16cast (-(9/10)) = 0 := by
  have hmap : pcm_encode xs = xs.map (fun x => ratTrunc (x * 32767)) := by
    rw [pcm_encode]
    refine List.map_congr_left fun x hx => ?_
    obtain ⟨hb1, hb2⟩ := ratTrunc_scale_bound (h x hx)
    exact int16cast_of_bounded (by omega) hb2
  refine ⟨hmap, ?_, ?_, ?_⟩
  · intro y hy
    rw [hmap] at hy
    obtain ⟨x, hx, rfl⟩ := List.mem_map.mp hy
    exact ratTrunc_scale_bound (h x hx)
  · with_unfolding_all decide
  · with_unfolding_all decide

theorem pcm_encode_truncates_witness :
    (∀ x ∈ [(9/327670 : ℚ), -(9/327670)], ratAbs x ≤ 1) ∧
    (pcm_encode [(9/327670 : ℚ), -(9/327670)] =
      [(9/327670 : ℚ), -(9/327670)].map (fun x => ratTrunc (x * 32767)) ∧
    (∀ y ∈ pcm_encode [(9/327670 : ℚ), -(9/327670)], -32767 ≤ y ∧ y ≤ 32767) ∧
    int16cast (9/10) = 0 ∧ int16cast (-(9/10)) = 0) :=
  ⟨by with_unfolding_all decide,
   pcm_encode_truncates [(9/327670 : ℚ), -(9/327670)]
     (by with_unfolding_all decide)⟩

/-! ### Claim C9 about `apply_fade` -/

theorem mulPrefix_length {xs ramp : List ℚ} (h : ramp.length ≤ xs.length) :
    (mulPrefix xs ramp).length = xs.length := by
  rw [mulPrefix]
  rw [List.length_append, List.length_zipWith, List.length_drop]
  omega

theorem mulSuffix_length {xs ramp : List ℚ} (h : ramp.length ≤ xs.length) :
    (mulSuffix xs ramp).length = xs.length := by
  rw [mulSuffix]
  rw [List.length_append, List.length_take, List.length_zipWith,
    List.length_drop]
  omega

/-- C9: `apply_fade` is total exactly for buffers holding at least
`fade_length` samples (`4410` at the default `0.1 s` fade): a shorter buffer
(with a non-degenerate ramp) makes the in-place slice multiplication raise a
broadcast shape mismatch, while a long-enough buffer yields a faded buffer of
unchanged length. -/
theorem apply_fade_total_iff (audio : List ℚ) (fd : ℚ) :
    (audio.length < fade_length fd → fade_length fd ≠ 1 →
      apply_fade audio fd = .error .shapeMismatch) ∧
    (fade_length fd ≤ audio.length →
      ∃ ys, apply_fade audio fd = .ok ys ∧ ys.length = audio.length) := by
  constructor
  · intro hlt hne1
    simp only [apply_fade]
    rw [if_pos ?_]
    refine ⟨?_, hne1⟩
    rw [min_eq_left (le_of_lt hlt)]
    omega
  · intro hle
    simp only [apply_fade]
    rw [if_neg ?_]
    · refine ⟨_, rfl, ?_⟩
      have hP : (linspace 0 1 (fade_length fd)).length ≤ audio.length := by
        rw [linspace_length]; exact hle
      have hS : (linspace 1 0 (fade_length fd)).length ≤
          (mulPrefix audio (linspace 0 1 (fade_length fd))).length := by
        rw [linspace_length, mulPrefix_length hP]; exact hle
      rw [mulSuffix_length hS, mulPrefix_length hP]
    · intro hand
      exact hand.1 (by rw [min_eq_right hle])

theorem apply_fade_total_iff_witness :
    ((3 : Nat) < fade_length (1/10) ∧ fade_length (1/10) ≠ 1 ∧
      apply_fade [1, 2, 3] (1/10) = .error .shapeMismatch) ∧
    (fade_length (2/44100) ≤ 3 ∧
      ∃ ys, apply_fade [(0 : ℚ), 0, 0] (2/44100) = .ok ys ∧ ys.length = 3) :=
  ⟨⟨by with_unfolding_all decide, by with_unfolding_all decide,
     (apply_fade_total_iff [1, 2, 3] (1/10)).1
       (by with_unfolding_all decide) (by with_unfolding_all decide)⟩,
   ⟨by with_unfolding_all decide,
     (apply_fade_total_iff [(0 : ℚ), 0, 0] (2/44100)).2
       (by with_unfolding_all decide)⟩⟩

/-! ### Claim C7 about `apply_band_filter` -/

/-- C7 (amended): the band mask of `apply_band_filter` is inclusive at both
edges — a bin whose frequency is exactly the band's upper bound is scaled
too, so a `250 Hz` bin is affected by both the low `[20, 250]` and the mid
`[250, 4000]` filter (and likewise `4000 Hz` by mid and high); the filtered
buffer keeps the input's length. -/
theorem apply_band_filter_inclusive (M : FFTModel) (pow10 : ℚ → ℚ) (sr : ℚ)
    (audio : List ℚ) (gain_db : ℚ) (hne : audio ≠ []) :
    (∃ ys, apply_band_filter M pow10 sr audio "low" gain_db = .ok ys ∧
      ys.length = audio.length) ∧
    (∀ (lo hi : ℚ) (n k : Nat) (gain : ℚ) (fft : List (ℚ × ℚ))
      (hk : k < fft.length),
      (bandScaleSpectrum sr n lo hi gain fft)[k]? =
        some (if lo ≤ rfftfreq sr n k ∧ rfftfreq sr n k ≤ hi then
          (gain * (fft.get ⟨k, hk⟩).1, gain * (fft.get ⟨k, hk⟩).2)
        else fft.get ⟨k, hk⟩)) ∧
    bands "low" = some (20, 250) ∧ bands "mid" = some (250, 4000) ∧
    bands "high" = some (4000, 20000) := by
  refine ⟨?_, ?_, rfl, rfl, rfl⟩
  · rw [apply_band_filter]
    split
    · rename_i heq
      rw [bands] at heq
      simp at heq
    · rw [if_neg (fun h => hne (List.length_eq_zero.mp h))]
      exact ⟨_, rfl, M.irfft_length _ _⟩
  · intro lo hi n k gain fft hk
    have hlen : k < (bandScaleSpectrum sr n lo hi gain fft).length := by
      simp only [bandScaleSpectrum, List.length_mapIdx]; exact hk
    rw [List.getElem?_eq_getElem hlen]
    congr 1
    simp only [bandScaleSpectrum, List.getElem_mapIdx, List.get_eq_getElem]

theorem apply_band_filter_inclusive_witness :
    (([(0 : ℚ), 0, 0, 0] : List ℚ) ≠ []) ∧
    (∃ ys, apply_band_filter trivialFFT (fun _ => (10 : ℚ)) 1000
        [(0 : ℚ), 0, 0, 0] "low" 5 = .ok ys ∧ ys.length = 4) ∧
    (bandScaleSpectrum 1000 4 20 250 10 [((1 : ℚ), (0 : ℚ)), (1, 0), (1, 0)])[1]? =
      some (if (20 : ℚ) ≤ rfftfreq 1000 4 1 ∧ rfftfreq 1000 4 1 ≤ 250 then
        (10 * (([((1 : ℚ), (0 : ℚ)), (1, 0), (1, 0)].get ⟨1, by norm_num⟩).1),
         10 * (([((1 : ℚ), (0 : ℚ)), (1, 0), (1, 0)].get ⟨1, by norm_num⟩).2))
      else [((1 : ℚ), (0 : ℚ)), (1, 0), (1, 0)].get ⟨1, by norm_num⟩) :=
  ⟨by simp,
   (apply_band_filter_inclusive trivialFFT (fun _ => (10 : ℚ)) 1000
     [(0 : ℚ), 0, 0, 0] 5 (by simp)).1,
   (apply_band_filter_inclusive trivialFFT (fun _ => (10 : ℚ)) 1000
     [(0 : ℚ), 0, 0, 0] 5 (by simp)).2.1 20 250 4 1 10 _ (by norm_num)⟩

/-- C7 (counterexample): at sample rate `1000` and buffer length `4`, bin `1`
sits at exactly `250 Hz`; the low-band filter scales it by the gain (the mask
is inclusive, not half-open), and the mid-band filter scales it as well. -/
theorem band_boundary_inclusive_counterexample :
    rfftfreq 1000 4 1 = 250 ∧
    (bandScaleSpectrum 1000 4 20 250 10
      [((1 : ℚ), (0 : ℚ)), (1, 0), (1, 0)])[1]? = some (10, 0) ∧
    (bandScaleSpectrum 1000 4 250 4000 10
      [((1 : ℚ), (0 : ℚ)), (1, 0), (1, 0)])[1]? = some (10, 0) ∧
    ((10 : ℚ), (0 : ℚ)) ≠ ((1 : ℚ), (0 : ℚ)) := by
  refine ⟨?_, ?_, ?_, ?_⟩ <;> with_unfolding_all decide

/-! ### Claim C3 about `mix_background` -/

theorem samples_of_length (sr : ℚ) (L : Nat) (hsr : sr ≠ 0) :
    (ratTrunc (sr * ((L : ℚ) / sr))).toNat = L := by
  have hmul : sr * ((L : ℚ) / sr) = (L : ℚ) := by field_simp
  rw [hmul, ratTrunc, if_pos (by positivity), Int.floor_natCast,
    Int.toNat_natCast]

theorem pinked_length (fft : List (ℚ × ℚ)) (f : Nat → (ℚ × ℚ) → (ℚ × ℚ)) :
    (fft.take 1 ++ (fft.drop 1).mapIdx f).length =
      min 1 fft.length + (fft.length - 1) := by
  rw [List.length_append, List.length_take, List.length_mapIdx,
    List.length_drop]

theorem generate_white_noise_spec (M : FFTModel) (sqrtQ : ℚ → ℚ)
    (gauss : Nat → ℚ) (sr volume : ℚ) (L : Nat) (hsr : sr ≠ 0)
    (hL : L ≠ 0) (hL1 : L ≠ 1) :
    ∃ ws, generate_white_noise M sqrtQ gauss sr ((L : ℚ) / sr) volume =
      .ok ws ∧ ws.length = 2 * (L / 2) := by
  simp only [generate_white_noise, samples_of_length sr L hsr]
  rw [if_neg hL]
  have hfft : (M.rfft ((List.range L).map gauss)).length = L / 2 + 1 := by
    rw [M.rfft_length]; simp
  rw [pinked_length, hfft]
  rw [if_neg (by omega)]
  refine ⟨_, rfl, ?_⟩
  rw [List.length_map, M.irfft_length]
  omega

theorem generate_white_noise_one (M : FFTModel) (sqrtQ : ℚ → ℚ)
    (gauss : Nat → ℚ) (sr volume : ℚ) (L : Nat) (hsr : sr ≠ 0)
    (hL1 : L = 1) :
    generate_white_noise M sqrtQ gauss sr ((L : ℚ) / sr) volume =
      .error .invalidFFTPoints := by
  simp only [generate_white_noise, samples_of_length sr L hsr]
  subst hL1
  rw [if_neg (by omega)]
  have hfft : (M.rfft ((List.range 1).map gauss)).length = 1 := by
    rw [M.rfft_length]; simp
  rw [pinked_length, hfft]
  rw [if_pos (by omega)]

theorem mixChannel_ok {bg ch : List ℚ} (h : ch.length = bg.length) :
    ∃ out, mixChannel bg ch = .ok out ∧ out.length = ch.length ∧
      ∀ x ∈ out, ratAbs x ≤ 1 := by
  rw [mixChannel, npAdd, if_pos h]
  refine ⟨_, rfl, ?_, fun x hx => mem_normalizeIfClipping_le_one hx⟩
  rw [normalizeIfClipping_length, List.length_zipWith]
  omega

theorem mixChannel_mismatch {bg ch : List ℚ} (h : ch.length ≠ bg.length) :
    mixChannel bg ch = .error .shapeMismatch := by
  rw [mixChannel, npAdd, if_neg h]

/-- C3 (amended): with the default white-noise background, `mix_background`
preserves the mono/stereo shape and the channel length and bounds every
output sample by `1` in absolute value — but only for buffers of **even**
length.  For odd-length input the background comes back one sample short
from `np.fft.irfft` (or, for a single sample, `irfft` is asked for zero
points) and the mix raises instead of returning. -/
theorem mix_background_white_noise_shapes (M : FFTModel)
    (sqrtQ sin2pi pow10 : ℚ → ℚ) (gauss : Nat → ℚ) (sr volume : ℚ)
    (hsr : sr ≠ 0) :
    (∀ ch : List ℚ, ch.length % 2 = 0 → ch ≠ [] →
      ∃ out, mix_background M sqrtQ sin2pi pow10 gauss sr (.mono ch)
          .white_noise volume none = .ok (.mono out) ∧
        out.length = ch.length ∧ ∀ x ∈ out, ratAbs x ≤ 1) ∧
    (∀ l r : List ℚ, r.length = l.length → l.length % 2 = 0 → l ≠ [] →
      ∃ outl outr, mix_background M sqrtQ sin2pi pow10 gauss sr
          (.stereo l r) .white_noise volume none = .ok (.stereo outl outr) ∧
        outl.length = l.length ∧ outr.length = r.length ∧
        (∀ x ∈ outl, ratAbs x ≤ 1) ∧ (∀ x ∈ outr, ratAbs x ≤ 1)) ∧
    (∀ ch : List ℚ, ch.length % 2 = 1 →
      ∃ e, mix_background M sqrtQ sin2pi pow10 gauss sr (.mono ch)
          .white_noise volume none = .error e) := by
  refine ⟨?_, ?_, ?_⟩
  · intro ch hpar hne
    have hL : ch.length ≠ 0 := fun h => hne (List.length_eq_zero.mp h)
    obtain ⟨ws, hws, hwlen⟩ := generate_white_noise_spec M sqrtQ gauss sr
      volume ch.length hsr hL (by omega)
    have hwl : ch.length = ws.length := by omega
    obtain ⟨out, hout, holen, hobnd⟩ := @mixChannel_ok ws ch hwl
    refine ⟨out, ?_, holen, hobnd⟩
    simp only [mix_background, hws, hout]
  · intro l r hrl hpar hne
    have hL : l.length ≠ 0 := fun h => hne (List.length_eq_zero.mp h)
    obtain ⟨ws, hws, hwlen⟩ := generate_white_noise_spec M sqrtQ gauss sr
      volume l.length hsr hL (by omega)
    have hwl : l.length = ws.length := by omega
    have hwr : r.length = ws.length := by omega
    obtain ⟨outl, houtl, hollen, holbnd⟩ := @mixChannel_ok ws l hwl
    obtain ⟨outr, houtr, horlen, horbnd⟩ := @mixChannel_ok ws r hwr
    refine ⟨outl, outr, ?_, hollen, horlen, holbnd, horbnd⟩
    simp only [mix_background, hws, houtl, houtr]
  · intro ch hpar
    have hL : ch.length ≠ 0 := by omega
    by_cases h1 : ch.length = 1
    · refine ⟨.invalidFFTPoints, ?_⟩
      have hws := generate_white_noise_one M sqrtQ gauss sr volume
        ch.length hsr h1
      simp only [mix_background, hws]
    · obtain ⟨ws, hws, hwlen⟩ := generate_white_noise_spec M sqrtQ gauss sr
        volume ch.length hsr hL h1
      have hwl : ch.length ≠ ws.length := by omega
      refine ⟨.shapeMismatch, ?_⟩
      simp only [mix_background, hws, mixChannel_mismatch hwl]

theorem mix_background_white_noise_shapes_witness :
    ((44100 : ℚ) ≠ 0) ∧
    ∃ out, mix_background trivialFFT (fun _ => 0) (fun _ => 0) (fun _ => 0)
        (fun _ => 0) 44100 (.mono [0, 0]) .white_noise (1/10) none =
      .ok (.mono out) ∧ out.length = 2 ∧ ∀ x ∈ out, ratAbs x ≤ 1 :=
  ⟨by norm_num,
   (mix_background_white_noise_shapes trivialFFT (fun _ => 0) (fun _ => 0)
       (fun _ => 0) (fun _ => 0) 44100 (1/10) (by norm_num)).1
     [0, 0] (by norm_num) (by simp)⟩

/-- C3 (counterexample): mixing white noise into a 3-sample mono buffer
raises a broadcast shape mismatch — the shaped noise returned by
`np.fft.irfft` has only 2 samples — instead of returning a length-3 mono
buffer. -/
theorem mix_background_odd_counterexample :
    mix_background trivialFFT (fun _ => 0) (fun _ => 0) (fun _ => 0)
      (fun _ => 0) 44100 (.mono [0, 0, 0]) .white_noise (1/10) none =
    .error .shapeMismatch := by
  with_unfolding_all decide

end Resonera
